import Mathlib

/-!
Shallow embedding of the folder-tree selection engine of the
interactive-folder-selector repository.

Sources embedded here:
* the utility module (given as an unnamed source file) exporting
  `parseApiResponse`, `nestFoldersWithItems`, `sortFolders`, `processApiData`,
  `getAllDescendantItemIds`, `flattenFolders`, `calculateFolderStates`,
  `isFolderIndeterminate`, `areAllFolderItemsSelected`, `toggleFolderSelection`;
* the React hook `useFolderData.ts` (`fetchData` success path,
  `toggleItemSelection`, `toggleFolderSelectionHandler`, `isFolderSelected`,
  `isFolderIndeterminate` lookups).

Modelling conventions:
* JavaScript `number` ids are modelled as `Int` (ids are integers here and no
  arithmetic overflows occur: the code only compares ids).
* JavaScript `Set<number>` is modelled as `Finset Int` (the code only uses
  membership, `add`, `delete` and copying; iteration order is never observed
  by the embedded operations).
* The source's nested `Folder` objects (with `children` arrays) become the
  nested inductive `Folder`; the flat pre-nesting records (whose `children` /
  `items` arrays are cleared by `nestFoldersWithItems` before use) are
  modelled by `FlatFolder`.
* BFS queue loops (`while (queue.length > 0) { shift; push children }`)
  become structurally faithful recursions on the queue list, terminating by
  the total weight of the queue.
-/

namespace FolderSelector

/-- An item record: `{ id, name, folder_id }` from the source's `Item`
interface. -/
structure Item where
  id : Int
  name : String
  folder_id : Int
deriving DecidableEq, Repr

/-- A flat folder record as consumed by `nestFoldersWithItems`: that function
overwrites `children` and `items` before reading them, so only
`id`, `name`, `parent` matter for the flat input. -/
structure FlatFolder where
  id : Int
  name : String
  parent : Option Int
deriving DecidableEq, Repr

/-- A nested folder as produced by the tree builder: the source's `Folder`
interface `{ id, name, parent, children, items }`. -/
inductive Folder : Type where
  | mk (id : Int) (name : String) (parent : Option Int)
       (children : List Folder) (items : List Item)

/-- Field accessor: `folder.id`. -/
def Folder.id : Folder → Int
  | .mk i _ _ _ _ => i

/-- Field accessor: `folder.name`. -/
def Folder.name : Folder → String
  | .mk _ n _ _ _ => n

/-- Field accessor: `folder.parent`. -/
def Folder.parent : Folder → Option Int
  | .mk _ _ p _ _ => p

/-- Field accessor: `folder.children`. -/
def Folder.children : Folder → List Folder
  | .mk _ _ _ c _ => c

/-- Field accessor: `folder.items`. -/
def Folder.items : Folder → List Item
  | .mk _ _ _ _ it => it

mutual

/-- Weight of a folder: one plus the weight of its children.  Used as the
termination measure for the source's BFS queue loops. -/
def folderWeight : Folder → Nat
  | .mk _ _ _ cs _ => 1 + folderListWeight cs

/-- Total weight of a list of folders. -/
def folderListWeight : List Folder → Nat
  | [] => 0
  | f :: fs => folderWeight f + folderListWeight fs

end

theorem folderListWeight_append (a b : List Folder) :
    folderListWeight (a ++ b) = folderListWeight a + folderListWeight b := by
  induction a with
  | nil => simp [folderListWeight]
  | cons f fs ih => simp [folderListWeight, ih]; omega

theorem folderWeight_eq (f : Folder) :
    folderWeight f = 1 + folderListWeight f.children := by
  cases f
  rfl

theorem folderListWeight_cons (f : Folder) (l : List Folder) :
    folderListWeight (f :: l) = folderWeight f + folderListWeight l := rfl

mutual

/-- The nodes of a folder's subtree (the folder itself and, recursively, all
nodes of its children).  Auxiliary notion used to state membership facts
about the source's BFS traversals. -/
def subtreeNodes : Folder → List Folder
  | .mk i n p cs its => .mk i n p cs its :: subtreeNodesList cs

/-- All subtree nodes of a list of folders, in order. -/
def subtreeNodesList : List Folder → List Folder
  | [] => []
  | f :: fs => subtreeNodes f ++ subtreeNodesList fs

end

theorem mem_subtreeNodesList {m : Folder} {l : List Folder} :
    m ∈ subtreeNodesList l ↔ ∃ f ∈ l, m ∈ subtreeNodes f := by
  induction l with
  | nil => simp [subtreeNodesList]
  | cons f fs ih => simp [subtreeNodesList, ih]

theorem mem_subtreeNodes {m f : Folder} :
    m ∈ subtreeNodes f ↔ m = f ∨ ∃ c ∈ f.children, m ∈ subtreeNodes c := by
  cases f with
  | mk i n p cs its =>
    simp [subtreeNodes, mem_subtreeNodesList, Folder.children]

theorem self_mem_subtreeNodes (f : Folder) : f ∈ subtreeNodes f := by
  rw [mem_subtreeNodes]
  exact Or.inl rfl

/-- Queue loop of the source's `getAllDescendantItemIds`: shift the head,
push its items' ids, enqueue its children at the end of the queue. -/
def bfsItemIds : List Folder → List Int
  | [] => []
  | f :: rest => f.items.map Item.id ++ bfsItemIds (rest ++ f.children)
termination_by q => folderListWeight q
decreasing_by
  simp only [folderListWeight_append, folderListWeight_cons]
  have h := folderWeight_eq f
  omega

/-- `getAllDescendantItemIds(folder)`: BFS collection of the ids of all items
owned by the folder or any of its descendants. -/
def getAllDescendantItemIds (folder : Folder) : List Int :=
  bfsItemIds [folder]

/-- Queue loop of the source's `flattenFolders`: shift the head, record it,
enqueue its children. -/
def bfsFlatten : List Folder → List Folder
  | [] => []
  | f :: rest => f :: bfsFlatten (rest ++ f.children)
termination_by q => folderListWeight q
decreasing_by
  simp only [folderListWeight_append, folderListWeight_cons]
  have h := folderWeight_eq f
  omega

/-- `flattenFolders(folders)`: BFS flattening of a forest into the list of all
its nodes. -/
def flattenFolders (folders : List Folder) : List Folder :=
  bfsFlatten folders

theorem mem_bfsItemIds (q : List Folder) (x : Int) :
    x ∈ bfsItemIds q ↔ ∃ f ∈ q, ∃ m ∈ subtreeNodes f, x ∈ m.items.map Item.id := by
  match q with
  | [] => simp [bfsItemIds]
  | f :: rest =>
    rw [bfsItemIds]
    have ih := mem_bfsItemIds (rest ++ f.children) x
    simp only [List.mem_append, ih, List.mem_cons]
    constructor
    · rintro (hx | ⟨g, hg | hg, hm⟩)
      · exact ⟨f, Or.inl rfl, f, self_mem_subtreeNodes f, hx⟩
      · exact ⟨g, Or.inr hg, hm⟩
      · obtain ⟨m, hm1, hm2⟩ := hm
        refine ⟨f, Or.inl rfl, m, ?_, hm2⟩
        rw [mem_subtreeNodes]
        exact Or.inr ⟨g, hg, hm1⟩
    · rintro ⟨g, rfl | hg, m, hm, hx⟩
      · rw [mem_subtreeNodes] at hm
        rcases hm with rfl | ⟨c, hc, hmc⟩
        · exact Or.inl hx
        · exact Or.inr ⟨c, Or.inr hc, m, hmc, hx⟩
      · exact Or.inr ⟨g, Or.inl hg, m, hm, hx⟩
termination_by folderListWeight q
decreasing_by
  simp only [folderListWeight_append, folderListWeight_cons]
  have h := folderWeight_eq f
  omega

theorem mem_bfsFlatten (q : List Folder) (m : Folder) :
    m ∈ bfsFlatten q ↔ ∃ f ∈ q, m ∈ subtreeNodes f := by
  match q with
  | [] => simp [bfsFlatten]
  | f :: rest =>
    rw [bfsFlatten]
    have ih := mem_bfsFlatten (rest ++ f.children) m
    simp only [List.mem_cons, ih, List.mem_append]
    constructor
    · rintro (rfl | ⟨g, hg | hg, hm⟩)
      · exact ⟨m, Or.inl rfl, self_mem_subtreeNodes m⟩
      · exact ⟨g, Or.inr hg, hm⟩
      · refine ⟨f, Or.inl rfl, ?_⟩
        rw [mem_subtreeNodes]
        exact Or.inr ⟨g, hg, hm⟩
    · rintro ⟨g, rfl | hg, hm⟩
      · rw [mem_subtreeNodes] at hm
        rcases hm with rfl | ⟨c, hc, hmc⟩
        · exact Or.inl rfl
        · exact Or.inr ⟨c, Or.inr hc, hmc⟩
      · exact Or.inr ⟨g, Or.inl hg, hm⟩
termination_by folderListWeight q
decreasing_by
  simp only [folderListWeight_append, folderListWeight_cons]
  have h := folderWeight_eq f
  omega

theorem mem_flattenFolders {folders : List Folder} {m : Folder} :
    m ∈ flattenFolders folders ↔ ∃ f ∈ folders, m ∈ subtreeNodes f :=
  mem_bfsFlatten folders m

/-- `isFolderIndeterminate(folder, selectedItemIds)` from the utility module:
false when there are no descendant items, otherwise true iff strictly between
zero and all of the descendant item ids are selected. -/
def isFolderIndeterminate (folder : Folder) (selectedItemIds : Finset Int) : Bool :=
  let descendantItemIds := getAllDescendantItemIds folder
  if descendantItemIds.length = 0 then false
  else
    let selectedCount :=
      (descendantItemIds.filter (fun i => decide (i ∈ selectedItemIds))).length
    decide (0 < selectedCount) && decide (selectedCount < descendantItemIds.length)

/-- `areAllFolderItemsSelected(folder, selectedItemIds)`: false when there are
no descendant items, otherwise true iff every descendant item id is
selected. -/
def areAllFolderItemsSelected (folder : Folder) (selectedItemIds : Finset Int) : Bool :=
  let descendantItemIds := getAllDescendantItemIds folder
  if descendantItemIds.length = 0 then false
  else descendantItemIds.all (fun i => decide (i ∈ selectedItemIds))

/-- `toggleFolderSelection(folder, selectedItemIds)`: copy the set; if the
folder is currently fully selected delete every descendant item id from the
copy, otherwise add every descendant item id. -/
def toggleFolderSelection (folder : Folder) (selectedItemIds : Finset Int) : Finset Int :=
  let descendantItemIds := getAllDescendantItemIds folder
  let isCurrentlySelected := areAllFolderItemsSelected folder selectedItemIds
  if isCurrentlySelected then
    descendantItemIds.foldl (fun s i => s.erase i) selectedItemIds
  else
    descendantItemIds.foldl (fun s i => insert i s) selectedItemIds

/-- The pair `{ selected, indeterminate }` computed for one folder inside the
post-order loop of `calculateFolderStates`. -/
def folderStateOf (folder : Folder) (selectedItemIds : Finset Int) : Bool × Bool :=
  let descIds := getAllDescendantItemIds folder
  let total := descIds.length
  let selectedCount := (descIds.filter (fun i => decide (i ∈ selectedItemIds))).length
  (decide (0 < total) && decide (selectedCount = total),
   decide (0 < selectedCount) && decide (selectedCount < total))

mutual

/-- `buildPostOrder` from `calculateFolderStates`: children first, then the
folder itself. -/
def postOrderOf : Folder → List Folder
  | .mk i n p cs its => postOrderOfList cs ++ [.mk i n p cs its]

/-- The post-order list accumulated by `folders.forEach(buildPostOrder)`. -/
def postOrderOfList : List Folder → List Folder
  | [] => []
  | f :: fs => postOrderOf f ++ postOrderOfList fs

end

/-- `calculateFolderStates(folders, selectedItemIds)`: the id-keyed state map,
modelled as a lookup function.  `Map.set` for each post-order folder in turn
means a later write for the same key overwrites an earlier one. -/
def calculateFolderStates (folders : List Folder) (selectedItemIds : Finset Int) :
    Int → Option (Bool × Bool) :=
  (postOrderOfList folders).foldl
    (fun m f => fun k => if k = f.id then some (folderStateOf f selectedItemIds) else m k)
    (fun _ => none)

/-- The hook's `isFolderSelected(folder)`: look the folder's id up in the
memoized state map, defaulting to false. -/
def isFolderSelectedHook (folders : List Folder) (selectedItemIds : Finset Int)
    (folder : Folder) : Bool :=
  match calculateFolderStates folders selectedItemIds folder.id with
  | some st => st.1
  | none => false

/-- The hook's `isFolderIndeterminate(folder)`: look the folder's id up in the
memoized state map, defaulting to false. -/
def isFolderIndeterminateHook (folders : List Folder) (selectedItemIds : Finset Int)
    (folder : Folder) : Bool :=
  match calculateFolderStates folders selectedItemIds folder.id with
  | some st => st.2
  | none => false

/-- `SelectionState` from the types module. -/
structure SelectionState where
  selectedItemIds : Finset Int
  expandedFolderIds : Finset Int
deriving DecidableEq

/-- The hook's `toggleItemSelection(itemId)`: flip membership of the id in
`selectedItemIds`, leaving `expandedFolderIds` untouched. -/
def toggleItemSelection (st : SelectionState) (itemId : Int) : SelectionState :=
  let s := st.selectedItemIds
  { st with
    selectedItemIds := if itemId ∈ s then s.erase itemId else insert itemId s }

/-- The hook's `toggleFolderSelectionHandler(folderId)`: find the folder by id
in the flattened forest; if absent, return with no state change; otherwise
replace `selectedItemIds` by `toggleFolderSelection` of the target. -/
def toggleFolderSelectionHandler (folders : List Folder) (st : SelectionState)
    (folderId : Int) : SelectionState :=
  match (flattenFolders folders).find? (fun f => f.id == folderId) with
  | none => st
  | some target =>
    { st with selectedItemIds := toggleFolderSelection target st.selectedItemIds }

theorem mem_foldl_erase (d : List Int) (s : Finset Int) (x : Int) :
    x ∈ d.foldl (fun s i => s.erase i) s ↔ x ∈ s ∧ x ∉ d := by
  induction d generalizing s with
  | nil => simp
  | cons a d ih =>
    rw [List.foldl_cons, ih]
    simp only [Finset.mem_erase, List.mem_cons]
    constructor
    · rintro ⟨⟨hxa, hxs⟩, hxd⟩
      exact ⟨hxs, by simp [hxa, hxd]⟩
    · rintro ⟨hxs, hx⟩
      push_neg at hx
      exact ⟨⟨hx.1, hxs⟩, hx.2⟩

theorem mem_foldl_insert (d : List Int) (s : Finset Int) (x : Int) :
    x ∈ d.foldl (fun s i => insert i s) s ↔ x ∈ s ∨ x ∈ d := by
  induction d generalizing s with
  | nil => simp
  | cons a d ih =>
    rw [List.foldl_cons, ih]
    simp only [Finset.mem_insert, List.mem_cons]
    tauto

theorem areAll_eq_true_iff (f : Folder) (s : Finset Int) :
    areAllFolderItemsSelected f s = true ↔
      getAllDescendantItemIds f ≠ [] ∧ ∀ i ∈ getAllDescendantItemIds f, i ∈ s := by
  simp only [areAllFolderItemsSelected]
  rcases h : getAllDescendantItemIds f with _ | ⟨a, d⟩
  · simp
  · simp [List.all_eq_true]

theorem mem_toggleFolderSelection (f : Folder) (s : Finset Int) (x : Int) :
    x ∈ toggleFolderSelection f s ↔
      (if areAllFolderItemsSelected f s then
         x ∈ s ∧ x ∉ getAllDescendantItemIds f
       else
         x ∈ s ∨ x ∈ getAllDescendantItemIds f) := by
  simp only [toggleFolderSelection]
  by_cases h : areAllFolderItemsSelected f s <;>
    simp [h, mem_foldl_erase, mem_foldl_insert]

/-- C9: toggleFolderSelection is frame-preserving outside the folder's
descendant closure: any item id that is not a descendant item id of the
folder has the same membership in the returned set as in the input set (the
input set itself is a value and is never mutated). -/
theorem toggleFolder_frame (f : Folder) (s : Finset Int) (x : Int)
    (hx : x ∉ getAllDescendantItemIds f) :
    x ∈ toggleFolderSelection f s ↔ x ∈ s := by
  rw [mem_toggleFolderSelection]
  by_cases h : areAllFolderItemsSelected f s <;> simp [h, hx]

theorem toggleFolder_frame_witness :
    (5 : Int) ∉ getAllDescendantItemIds (Folder.mk 1 "f" none [] [⟨10, "x", 1⟩]) ∧
    ((5 : Int) ∈ toggleFolderSelection (Folder.mk 1 "f" none [] [⟨10, "x", 1⟩])
        ({5} : Finset Int) ↔ (5 : Int) ∈ ({5} : Finset Int)) := by
  have h5 : (5 : Int) ∉ getAllDescendantItemIds (Folder.mk 1 "f" none [] [⟨10, "x", 1⟩]) := by
    simp [getAllDescendantItemIds, bfsItemIds, Folder.items, Folder.children, Item.id]
  exact ⟨h5, toggleFolder_frame _ _ _ h5⟩

/-- C8: toggleFolderSelection on a folder with zero descendant items returns
the input set unchanged, and such a folder is never considered fully
selected by areAllFolderItemsSelected. -/
theorem toggleFolder_no_descendants_noop (f : Folder) (s : Finset Int)
    (h : getAllDescendantItemIds f = []) :
    toggleFolderSelection f s = s ∧ areAllFolderItemsSelected f s = false := by
  have hall : areAllFolderItemsSelected f s = false := by
    simp [areAllFolderItemsSelected, h]
  refine ⟨?_, hall⟩
  simp [toggleFolderSelection, hall, h]

theorem toggleFolder_no_descendants_noop_witness :
    toggleFolderSelection (Folder.mk 1 "f" none [] []) ({3} : Finset Int) = {3} ∧
    areAllFolderItemsSelected (Folder.mk 1 "f" none [] []) ({3} : Finset Int) = false :=
  toggleFolder_no_descendants_noop _ _
    (by simp [getAllDescendantItemIds, bfsItemIds, Folder.items, Folder.children])

/-- C10: after toggleFolderSelection on a folder with at least one descendant
item, the folder is never indeterminate: the returned set contains none of
the descendant item ids when the folder was fully selected before, and all
of them otherwise. -/
theorem toggleFolder_never_indeterminate_after (f : Folder) (s : Finset Int)
    (h : getAllDescendantItemIds f ≠ []) :
    isFolderIndeterminate f (toggleFolderSelection f s) = false ∧
    (if areAllFolderItemsSelected f s then
       ∀ i ∈ getAllDescendantItemIds f, i ∉ toggleFolderSelection f s
     else
       ∀ i ∈ getAllDescendantItemIds f, i ∈ toggleFolderSelection f s) := by
  by_cases hall : areAllFolderItemsSelected f s
  · have hmem : ∀ i ∈ getAllDescendantItemIds f, i ∉ toggleFolderSelection f s := by
      intro i hi
      rw [mem_toggleFolderSelection]
      simp [hall, hi]
    refine ⟨?_, by simp only [hall, if_true]; exact hmem⟩
    have hfil : (getAllDescendantItemIds f).filter
        (fun i => decide (i ∈ toggleFolderSelection f s)) = [] := by
      rw [List.filter_eq_nil_iff]
      intro i hi
      simpa using hmem i hi
    simp [isFolderIndeterminate, hfil]
  · have hmem : ∀ i ∈ getAllDescendantItemIds f, i ∈ toggleFolderSelection f s := by
      intro i hi
      rw [mem_toggleFolderSelection]
      simp [hall, hi]
    refine ⟨?_, by simp only [hall, if_false, Bool.false_eq_true]; exact hmem⟩
    have hfil : (getAllDescendantItemIds f).filter
        (fun i => decide (i ∈ toggleFolderSelection f s)) = getAllDescendantItemIds f := by
      rw [List.filter_eq_self]
      intro i hi
      simpa using hmem i hi
    simp [isFolderIndeterminate, hfil]

theorem toggleFolder_never_indeterminate_after_witness :
    isFolderIndeterminate (Folder.mk 1 "f" none [] [⟨10, "x", 1⟩])
      (toggleFolderSelection (Folder.mk 1 "f" none [] [⟨10, "x", 1⟩]) (∅ : Finset Int))
      = false :=
  (toggleFolder_never_indeterminate_after _ _
    (by simp [getAllDescendantItemIds, bfsItemIds, Folder.items, Folder.children])).1

/-- C1 counterexample: toggling a folder twice does not always restore the
original set.  With descendant items 10 and 11 and only 10 selected
(indeterminate state), the first toggle selects both and the second removes
both, giving the empty set instead of the original set. -/
theorem toggleFolder_double_toggle_cex :
    toggleFolderSelection (Folder.mk 1 "f" none [] [⟨10, "x", 1⟩, ⟨11, "y", 1⟩])
        (toggleFolderSelection (Folder.mk 1 "f" none [] [⟨10, "x", 1⟩, ⟨11, "y", 1⟩])
          ({10} : Finset Int))
      ≠ ({10} : Finset Int) := by
  have hD : getAllDescendantItemIds (Folder.mk 1 "f" none [] [⟨10, "x", 1⟩, ⟨11, "y", 1⟩])
      = [10, 11] := by
    simp [getAllDescendantItemIds, bfsItemIds, Folder.items, Folder.children, Item.id]
  simp only [toggleFolderSelection, areAllFolderItemsSelected, hD]
  decide

/-- C1 amended: toggling a folder twice in succession restores the original
selectedItemIds set provided the folder is not in the indeterminate state at
the start, i.e. when either all of its descendant item ids are selected or
none of them are. -/
theorem toggleFolder_double_toggle_restores (f : Folder) (s : Finset Int)
    (h : areAllFolderItemsSelected f s = true ∨ ∀ i ∈ getAllDescendantItemIds f, i ∉ s) :
    toggleFolderSelection f (toggleFolderSelection f s) = s := by
  by_cases hall : areAllFolderItemsSelected f s
  · obtain ⟨hne, hsub⟩ := (areAll_eq_true_iff f s).mp hall
    obtain ⟨d0, hd0⟩ := List.exists_mem_of_ne_nil _ hne
    have hall1 : ¬ areAllFolderItemsSelected f (toggleFolderSelection f s) = true := by
      rw [areAll_eq_true_iff]
      rintro ⟨-, hin⟩
      have := hin d0 hd0
      rw [mem_toggleFolderSelection] at this
      simp [hall, hd0] at this
    ext x
    rw [mem_toggleFolderSelection, if_neg hall1, mem_toggleFolderSelection, if_pos hall]
    constructor
    · rintro (⟨hx, -⟩ | hx)
      · exact hx
      · exact hsub x hx
    · intro hx
      by_cases hxD : x ∈ getAllDescendantItemIds f
      · exact Or.inr hxD
      · exact Or.inl ⟨hx, hxD⟩
  · rcases h with h | hdisj
    · exact absurd h hall
    by_cases hD' : getAllDescendantItemIds f = []
    · have h1 : toggleFolderSelection f s = s := by
        simp [toggleFolderSelection, hD', areAllFolderItemsSelected]
      rw [h1, h1]
    have hall1 : areAllFolderItemsSelected f (toggleFolderSelection f s) = true := by
      rw [areAll_eq_true_iff]
      refine ⟨hD', fun i hi => ?_⟩
      rw [mem_toggleFolderSelection, if_neg (by simpa using hall)]
      exact Or.inr hi
    ext x
    rw [mem_toggleFolderSelection, if_pos hall1, mem_toggleFolderSelection,
      if_neg (by simpa using hall)]
    constructor
    · rintro ⟨hx | hx, hxD⟩
      · exact hx
      · exact absurd hx hxD
    · intro hx
      exact ⟨Or.inl hx, fun hxD => hdisj x hxD hx⟩

theorem toggleFolder_double_toggle_restores_witness :
    toggleFolderSelection (Folder.mk 1 "f" none [] [⟨10, "x", 1⟩])
        (toggleFolderSelection (Folder.mk 1 "f" none [] [⟨10, "x", 1⟩]) (∅ : Finset Int))
      = (∅ : Finset Int) :=
  toggleFolder_double_toggle_restores _ _ (Or.inr (by simp))

/-- C3 counterexample: toggling an item id that is absent from the forest
does not leave selectedItemIds unchanged.  With an empty forest (999 is in
no folder), toggleItemSelection adds 999 to the empty selection. -/
theorem toggleItem_absent_id_changes_cex :
    ((999 : Int) ∉ (flattenFolders ([] : List Folder)).map Folder.id) ∧
    (toggleItemSelection (SelectionState.mk ∅ ∅) 999).selectedItemIds ≠
      (SelectionState.mk ∅ ∅).selectedItemIds := by
  refine ⟨by simp [flattenFolders, bfsFlatten], ?_⟩
  simp [toggleItemSelection]

/-- C3 amended: both toggles are total functions (they never throw).
toggleFolderSelection on a folder id absent from the forest leaves the whole
SelectionState unchanged.  toggleItemSelection, by contrast, always flips
membership of the id in selectedItemIds, even for ids absent from the
forest; such a flip is a safe no-op only for the derived folder states: it
does not change any folder's selected/indeterminate computation when the id
is not among that folder's descendant item ids. -/
theorem toggle_absent_id_semantics (folders : List Folder) (st : SelectionState) (i : Int) :
    ((∀ f ∈ flattenFolders folders, f.id ≠ i) →
        toggleFolderSelectionHandler folders st i = st) ∧
    (∀ x : Int, x ∈ (toggleItemSelection st i).selectedItemIds ↔
        (if x = i then i ∉ st.selectedItemIds else x ∈ st.selectedItemIds)) ∧
    (∀ f : Folder, i ∉ getAllDescendantItemIds f →
        folderStateOf f (toggleItemSelection st i).selectedItemIds
          = folderStateOf f st.selectedItemIds) := by
  refine ⟨?_, ?_, ?_⟩
  · intro habs
    have hnone : (flattenFolders folders).find? (fun f => f.id == i) = none := by
      rw [List.find?_eq_none]
      intro f hf
      simpa using habs f hf
    simp [toggleFolderSelectionHandler, hnone]
  · intro x
    simp only [toggleItemSelection]
    by_cases hin : i ∈ st.selectedItemIds
    · by_cases hx : x = i
      · subst hx; simp [hin]
      · simp [hin, Finset.mem_erase, hx]
    · by_cases hx : x = i
      · subst hx; simp [hin]
      · simp [hin, Finset.mem_insert, hx]
  · intro f hf
    have hfil : (getAllDescendantItemIds f).filter
        (fun d => decide (d ∈ (toggleItemSelection st i).selectedItemIds))
        = (getAllDescendantItemIds f).filter (fun d => decide (d ∈ st.selectedItemIds)) := by
      apply List.filter_congr
      intro d hd
      have hdi : d ≠ i := fun hdi => hf (hdi ▸ hd)
      simp only [toggleItemSelection, decide_eq_decide]
      by_cases hin : i ∈ st.selectedItemIds <;> simp [hin, hdi]
    simp [folderStateOf, hfil]

theorem toggle_absent_id_semantics_witness :
    toggleFolderSelectionHandler [] (SelectionState.mk {3} ∅) 999
      = SelectionState.mk {3} ∅ :=
  (toggle_absent_id_semantics [] (SelectionState.mk {3} ∅) 999).1
    (by simp [flattenFolders, bfsFlatten])

theorem stateMap_foldl_preserve (s : Finset Int) (l : List Folder)
    (m : Int → Option (Bool × Bool)) (k : Int) (hk : k ∉ l.map Folder.id) :
    (l.foldl (fun m f => fun q => if q = f.id then some (folderStateOf f s) else m q) m) k
      = m k := by
  induction l generalizing m with
  | nil => rfl
  | cons g t ih =>
    rw [List.foldl_cons]
    simp only [List.map_cons, List.mem_cons, not_or] at hk
    rw [ih _ hk.2]
    simp [hk.1]

theorem stateMap_foldl_lookup (s : Finset Int) (l : List Folder)
    (m : Int → Option (Bool × Bool)) (f : Folder)
    (huniq : (l.map Folder.id).Nodup) (hf : f ∈ l) :
    (l.foldl (fun m g => fun q => if q = g.id then some (folderStateOf g s) else m q) m) f.id
      = some (folderStateOf f s) := by
  induction l generalizing m with
  | nil => cases hf
  | cons g t ih =>
    rw [List.foldl_cons]
    simp only [List.map_cons, List.nodup_cons] at huniq
    rcases List.mem_cons.mp hf with rfl | hft
    · rw [stateMap_foldl_preserve s t _ _ huniq.1]
      simp
    · exact ih _ huniq.2 hft

theorem calculateFolderStates_lookup (folders : List Folder) (s : Finset Int) (f : Folder)
    (huniq : ((postOrderOfList folders).map Folder.id).Nodup)
    (hf : f ∈ postOrderOfList folders) :
    calculateFolderStates folders s f.id = some (folderStateOf f s) :=
  stateMap_foldl_lookup s _ _ f huniq hf

/-- C4: for a folder of the forest (ids unique across the forest),
isFolderSelected and isFolderIndeterminate are never both true; when the
folder has at least one descendant item the three states fully-selected,
indeterminate and fully-unselected (selected count zero) are exhaustive and
pairwise exclusive; and a folder with zero descendant items is reported as
neither selected nor indeterminate. -/
theorem folder_tristate_partition (folders : List Folder) (s : Finset Int) (f : Folder)
    (hf : f ∈ postOrderOfList folders)
    (huniq : ((postOrderOfList folders).map Folder.id).Nodup) :
    (¬(isFolderSelectedHook folders s f = true ∧
        isFolderIndeterminateHook folders s f = true)) ∧
    (getAllDescendantItemIds f ≠ [] →
      (isFolderSelectedHook folders s f = true ∨
        isFolderIndeterminateHook folders s f = true ∨
        ((getAllDescendantItemIds f).filter (fun i => decide (i ∈ s))).length = 0) ∧
      ¬(isFolderSelectedHook folders s f = true ∧
          ((getAllDescendantItemIds f).filter (fun i => decide (i ∈ s))).length = 0) ∧
      ¬(isFolderIndeterminateHook folders s f = true ∧
          ((getAllDescendantItemIds f).filter (fun i => decide (i ∈ s))).length = 0)) ∧
    (getAllDescendantItemIds f = [] →
      isFolderSelectedHook folders s f = false ∧
      isFolderIndeterminateHook folders s f = false) := by
  have hlook : calculateFolderStates folders s f.id = some (folderStateOf f s) :=
    stateMap_foldl_lookup s _ _ f huniq hf
  have hsel : isFolderSelectedHook folders s f = (folderStateOf f s).1 := by
    simp [isFolderSelectedHook, hlook]
  have hind : isFolderIndeterminateHook folders s f = (folderStateOf f s).2 := by
    simp [isFolderIndeterminateHook, hlook]
  have hcnt : ((getAllDescendantItemIds f).filter (fun i => decide (i ∈ s))).length
      ≤ (getAllDescendantItemIds f).length := List.length_filter_le _ _
  rw [hsel, hind]
  simp only [folderStateOf, Bool.and_eq_true, decide_eq_true_eq, Bool.and_eq_false_iff,
    decide_eq_false_iff_not, ne_eq, ← List.length_eq_zero]
  constructor
  · omega
  constructor
  · intro hT
    omega
  · intro hT
    constructor <;> simp [hT]

theorem folder_tristate_partition_witness :
    ¬(isFolderSelectedHook [Folder.mk 1 "a" none [] [⟨10, "x", 1⟩]] (∅ : Finset Int)
        (Folder.mk 1 "a" none [] [⟨10, "x", 1⟩]) = true ∧
      isFolderIndeterminateHook [Folder.mk 1 "a" none [] [⟨10, "x", 1⟩]] (∅ : Finset Int)
        (Folder.mk 1 "a" none [] [⟨10, "x", 1⟩]) = true) :=
  (folder_tristate_partition _ _ _
    (by simp [postOrderOfList, postOrderOf])
    (by simp [postOrderOfList, postOrderOf, Folder.id])).1

/-- The ordering the source's sort comparator `(a, b) => a.name.localeCompare(b.name)`
induces on folders.  The locale-aware string comparison itself is abstracted
as a Boolean relation `le` on strings (claims about the sorter quantify over
any total, transitive `le`). -/
def folderNameLe (le : String → String → Bool) (a b : Folder) : Prop :=
  le a.name b.name = true

/-- The ordering the item sort comparator induces on items. -/
def itemNameLe (le : String → String → Bool) (a b : Item) : Prop :=
  le a.name b.name = true

instance (le : String → String → Bool) : DecidableRel (folderNameLe le) := fun a b => by
  unfold folderNameLe
  infer_instance

instance (le : String → String → Bool) : DecidableRel (itemNameLe le) := fun a b => by
  unfold itemNameLe
  infer_instance

mutual

/-- One folder of the output of the source's `sortFolders`: its `items` and
`children` arrays stably sorted by name, recursively at every depth.  The
source sorts each sibling array in place with the native stable sort and
walks the tree breadth-first; since sorting a child's inside never changes
its `name`, the resulting tree equals this recursive stable sort
(`List.insertionSort` is the stable sort). -/
def sortFolder (le : String → String → Bool) : Folder → Folder
  | .mk i n p cs its =>
    .mk i n p (List.insertionSort (folderNameLe le) (sortFolderList le cs))
      (List.insertionSort (itemNameLe le) its)

/-- `sortFolder` mapped over a list of sibling folders. -/
def sortFolderList (le : String → String → Bool) : List Folder → List Folder
  | [] => []
  | f :: fs => sortFolder le f :: sortFolderList le fs

end

/-- `sortFolders(folders)`: the root array sorted by name and every folder's
`items` and `children` sorted by name at every depth. -/
def sortFolders (le : String → String → Bool) (folders : List Folder) : List Folder :=
  List.insertionSort (folderNameLe le) (sortFolderList le folders)

theorem sortFolderList_eq_map (le : String → String → Bool) (l : List Folder) :
    sortFolderList le l = l.map (sortFolder le) := by
  induction l with
  | nil => simp [sortFolderList]
  | cons f fs ih => simp [sortFolderList, ih]

theorem sortFolder_subtree_sorted (le : String → String → Bool)
    (htot : ∀ a b, le a b = true ∨ le b a = true)
    (htrans : ∀ a b c, le a b = true → le b c = true → le a c = true)
    (f : Folder) :
    ∀ m ∈ subtreeNodes (sortFolder le f),
      m.children.Sorted (folderNameLe le) ∧ m.items.Sorted (itemNameLe le) := by
  haveI : IsTotal Folder (folderNameLe le) := ⟨fun a b => htot a.name b.name⟩
  haveI : IsTrans Folder (folderNameLe le) :=
    ⟨fun a b c hab hbc => htrans a.name b.name c.name hab hbc⟩
  haveI : IsTotal Item (itemNameLe le) := ⟨fun a b => htot a.name b.name⟩
  haveI : IsTrans Item (itemNameLe le) :=
    ⟨fun a b c hab hbc => htrans a.name b.name c.name hab hbc⟩
  cases f with
  | mk i n p cs its =>
    intro m hm
    simp only [sortFolder] at hm
    rw [mem_subtreeNodes] at hm
    rcases hm with rfl | ⟨c, hc, hmc⟩
    · exact ⟨by simpa [Folder.children] using
          List.sorted_insertionSort (folderNameLe le) (sortFolderList le cs),
        by simpa [Folder.items] using
          List.sorted_insertionSort (itemNameLe le) its⟩
    · simp only [Folder.children] at hc
      have hc2 : c ∈ sortFolderList le cs := (List.mem_insertionSort _).mp hc
      rw [sortFolderList_eq_map] at hc2
      obtain ⟨c0, hc0, rfl⟩ := List.mem_map.mp hc2
      exact sortFolder_subtree_sorted le htot htrans c0 m hmc
termination_by sizeOf f
decreasing_by
  have hlt := List.sizeOf_lt_sizeOf_of_mem hc0
  simp only [Folder.mk.sizeOf_spec]
  omega

theorem sortFolder_idem (le : String → String → Bool)
    (htot : ∀ a b, le a b = true ∨ le b a = true)
    (htrans : ∀ a b c, le a b = true → le b c = true → le a c = true)
    (f : Folder) :
    sortFolder le (sortFolder le f) = sortFolder le f := by
  haveI : IsTotal Folder (folderNameLe le) := ⟨fun a b => htot a.name b.name⟩
  haveI : IsTrans Folder (folderNameLe le) :=
    ⟨fun a b c hab hbc => htrans a.name b.name c.name hab hbc⟩
  haveI : IsTotal Item (itemNameLe le) := ⟨fun a b => htot a.name b.name⟩
  haveI : IsTrans Item (itemNameLe le) :=
    ⟨fun a b c hab hbc => htrans a.name b.name c.name hab hbc⟩
  cases f with
  | mk i n p cs its =>
    simp only [sortFolder]
    have hmap : sortFolderList le
        (List.insertionSort (folderNameLe le) (sortFolderList le cs))
        = List.insertionSort (folderNameLe le) (sortFolderList le cs) := by
      rw [sortFolderList_eq_map]
      have hfix : ∀ x ∈ List.insertionSort (folderNameLe le) (sortFolderList le cs),
          sortFolder le x = x := by
        intro x hx
        have hx2 : x ∈ sortFolderList le cs := (List.mem_insertionSort _).mp hx
        rw [sortFolderList_eq_map] at hx2
        obtain ⟨c0, hc0, rfl⟩ := List.mem_map.mp hx2
        exact sortFolder_idem le htot htrans c0
      exact (List.map_congr_left hfix).trans (List.map_id _)
    rw [hmap,
      ((List.sorted_insertionSort (folderNameLe le) (sortFolderList le cs)).insertionSort_eq),
      ((List.sorted_insertionSort (itemNameLe le) its).insertionSort_eq)]
termination_by sizeOf f
decreasing_by
  have hlt := List.sizeOf_lt_sizeOf_of_mem hc0
  simp only [Folder.mk.sizeOf_spec]
  omega

/-- C7: for any total, transitive name comparison, the sorter orders sibling
folders and each folder's items by that comparison at every depth of the
output forest, and sorting is idempotent: sorting an already-sorted forest
returns a structurally identical forest. -/
theorem sortFolders_sorted_and_idempotent (le : String → String → Bool)
    (htot : ∀ a b, le a b = true ∨ le b a = true)
    (htrans : ∀ a b c, le a b = true → le b c = true → le a c = true)
    (folders : List Folder) :
    ((sortFolders le folders).Sorted (folderNameLe le) ∧
      ∀ m ∈ flattenFolders (sortFolders le folders),
        m.children.Sorted (folderNameLe le) ∧ m.items.Sorted (itemNameLe le)) ∧
    sortFolders le (sortFolders le folders) = sortFolders le folders := by
  haveI : IsTotal Folder (folderNameLe le) := ⟨fun a b => htot a.name b.name⟩
  haveI : IsTrans Folder (folderNameLe le) :=
    ⟨fun a b c hab hbc => htrans a.name b.name c.name hab hbc⟩
  refine ⟨⟨List.sorted_insertionSort _ _, ?_⟩, ?_⟩
  · intro m hm
    rw [mem_flattenFolders] at hm
    obtain ⟨g, hg, hmg⟩ := hm
    have hg2 : g ∈ sortFolderList le folders := (List.mem_insertionSort _).mp hg
    rw [sortFolderList_eq_map] at hg2
    obtain ⟨g0, hg0, rfl⟩ := List.mem_map.mp hg2
    exact sortFolder_subtree_sorted le htot htrans g0 m hmg
  · show List.insertionSort _ (sortFolderList le (List.insertionSort _ (sortFolderList le folders))) = _
    have hmap : sortFolderList le
        (List.insertionSort (folderNameLe le) (sortFolderList le folders))
        = List.insertionSort (folderNameLe le) (sortFolderList le folders) := by
      rw [sortFolderList_eq_map]
      have hfix : ∀ x ∈ List.insertionSort (folderNameLe le) (sortFolderList le folders),
          sortFolder le x = x := by
        intro x hx
        have hx2 : x ∈ sortFolderList le folders := (List.mem_insertionSort _).mp hx
        rw [sortFolderList_eq_map] at hx2
        obtain ⟨c0, hc0, rfl⟩ := List.mem_map.mp hx2
        exact sortFolder_idem le htot htrans c0
      exact (List.map_congr_left hfix).trans (List.map_id _)
    rw [hmap,
      ((List.sorted_insertionSort (folderNameLe le) (sortFolderList le folders)).insertionSort_eq)]
    rfl

theorem sortFolders_sorted_and_idempotent_witness :
    sortFolders (fun a b => decide (a.length ≤ b.length))
        (sortFolders (fun a b => decide (a.length ≤ b.length))
          [Folder.mk 1 "bb" none [] [], Folder.mk 2 "a" none [] []])
      = sortFolders (fun a b => decide (a.length ≤ b.length))
          [Folder.mk 1 "bb" none [] [], Folder.mk 2 "a" none [] []] :=
  (sortFolders_sorted_and_idempotent (fun a b => decide (a.length ≤ b.length))
    (fun a b => by rcases Nat.le_total a.length b.length with h | h <;> simp [h])
    (fun a b c hab hbc => by
      simp only [decide_eq_true_eq] at *
      omega)
    [Folder.mk 1 "bb" none [] [], Folder.mk 2 "a" none [] []]).2

/-- Items assigned by `nestFoldersWithItems` to the folder with id `fid`:
the source pushes each item onto `folderMap.get(item.folder_id).items` in
input order, so with unique folder ids the folder with id `fid` receives
exactly the items whose `folder_id` equals `fid`, in first-seen order. -/
def itemsFor (items : List Item) (fid : Int) : List Item :=
  items.filter (fun it => decide (it.folder_id = fid))

/-- One node of the output of `nestFoldersWithItems`, built from the flat
record `g`: the children are the input folders whose `parent` is `g.id`, in
first-seen input order, built recursively.  The source builds the same graph
by mutating shared folder objects through an id-keyed map; with unique
folder ids the object graph reachable from the roots is exactly this tree.
The `fuel` argument (always instantiated with `folders.length`, an upper
bound on the depth of the reachable tree, as proved for the claims below)
makes the recursion structural. -/
def buildNode (folders : List FlatFolder) (items : List Item) : Nat → FlatFolder → Folder
  | 0, g => .mk g.id g.name g.parent [] (itemsFor items g.id)
  | fuel + 1, g =>
    .mk g.id g.name g.parent
      ((folders.filter (fun c => decide (c.parent = some g.id))).map
        (buildNode folders items fuel))
      (itemsFor items g.id)

/-- `nestFoldersWithItems(folders, items)`: the forest of roots — the input
folders with null parent, in first-seen order, nested recursively. -/
def nestFoldersWithItems (folders : List FlatFolder) (items : List Item) : List Folder :=
  (folders.filter (fun g => decide (g.parent = none))).map
    (buildNode folders items folders.length)

theorem buildNode_id (folders : List FlatFolder) (items : List Item) (fuel : Nat)
    (g : FlatFolder) : (buildNode folders items fuel g).id = g.id := by
  cases fuel <;> rfl

theorem buildNode_parent (folders : List FlatFolder) (items : List Item) (fuel : Nat)
    (g : FlatFolder) : (buildNode folders items fuel g).parent = g.parent := by
  cases fuel <;> rfl

theorem subtree_node_shape (folders : List FlatFolder) (items : List Item) :
    ∀ (fuel : Nat) (g : FlatFolder), g ∈ folders →
      ∀ m ∈ subtreeNodes (buildNode folders items fuel g),
        ∃ c ∈ folders, m.id = c.id ∧ m.items = itemsFor items c.id ∧
          (c = g ∨ ∃ q ∈ folders, c.parent = some q.id) := by
  intro fuel
  induction fuel with
  | zero =>
    intro g hg m hm
    simp only [buildNode] at hm
    rw [mem_subtreeNodes] at hm
    rcases hm with rfl | ⟨c, hc, hmc⟩
    · exact ⟨g, hg, rfl, rfl, Or.inl rfl⟩
    · simp [Folder.children] at hc
  | succ fuel ih =>
    intro g hg m hm
    simp only [buildNode] at hm
    rw [mem_subtreeNodes] at hm
    rcases hm with rfl | ⟨c, hc, hmc⟩
    · exact ⟨g, hg, rfl, rfl, Or.inl rfl⟩
    · simp only [Folder.children] at hc
      obtain ⟨c1, hc1, rfl⟩ := List.mem_map.mp hc
      have hc1f : c1 ∈ folders := (List.mem_filter.mp hc1).1
      have hc1p : c1.parent = some g.id := by
        have := (List.mem_filter.mp hc1).2
        simpa using this
      obtain ⟨c, hcf, hid, hitems, hflag⟩ := ih c1 hc1f m hmc
      refine ⟨c, hcf, hid, hitems, ?_⟩
      rcases hflag with rfl | hrest
      · exact Or.inr ⟨g, hg, hc1p⟩
      · exact Or.inr hrest

/-- C5: an item whose folder_id matches no folder id is discarded by the
tree builder: it is attached to no folder of the output forest, and its id
is excluded from every root's descendant-item computation (no error is
raised: the builder is a total function).  The second hypothesis is the data
model's item-id uniqueness, localized to this item's id. -/
theorem orphan_item_discarded (folders : List FlatFolder) (items : List Item) (it : Item)
    (horphan : ∀ g ∈ folders, g.id ≠ it.folder_id)
    (hid : ∀ it2 ∈ items, it2.id = it.id → it2 = it) :
    (∀ m ∈ flattenFolders (nestFoldersWithItems folders items), it ∉ m.items) ∧
    (∀ r ∈ nestFoldersWithItems folders items, it.id ∉ getAllDescendantItemIds r) := by
  have hmain : ∀ m ∈ flattenFolders (nestFoldersWithItems folders items), it ∉ m.items := by
    intro m hm hitm
    rw [mem_flattenFolders] at hm
    obtain ⟨r, hr, hmr⟩ := hm
    obtain ⟨g0, hg0, rfl⟩ := List.mem_map.mp hr
    have hg0f : g0 ∈ folders := (List.mem_filter.mp hg0).1
    obtain ⟨c, hcf, -, hitems, -⟩ :=
      subtree_node_shape folders items folders.length g0 hg0f m hmr
    rw [hitems] at hitm
    have hfid : it.folder_id = c.id := by
      simpa using (List.mem_filter.mp hitm).2
    exact horphan c hcf hfid.symm
  refine ⟨hmain, ?_⟩
  intro r hr hidmem
  rw [getAllDescendantItemIds, mem_bfsItemIds] at hidmem
  obtain ⟨f0, hf0, m, hmsub, hid2⟩ := hidmem
  simp only [List.mem_singleton] at hf0
  subst hf0
  obtain ⟨it2, hit2, hit2id⟩ := List.mem_map.mp hid2
  obtain ⟨g0, hg0, rfl⟩ := List.mem_map.mp hr
  have hg0f : g0 ∈ folders := (List.mem_filter.mp hg0).1
  obtain ⟨c, hcf, -, hitems, -⟩ :=
    subtree_node_shape folders items folders.length g0 hg0f m hmsub
  have hit2items : it2 ∈ items := by
    rw [hitems] at hit2
    exact (List.mem_filter.mp hit2).1
  have : it2 = it := hid it2 hit2items hit2id
  subst this
  refine hmain m ?_ hit2
  rw [mem_flattenFolders]
  exact ⟨buildNode folders items folders.length g0, List.mem_map.mpr ⟨g0, hg0, rfl⟩, hmsub⟩

theorem orphan_item_discarded_witness :
    Item.mk 10 "x" 999 ∉ (buildNode [FlatFolder.mk 1 "a" none] [Item.mk 10 "x" 999] 1
        (FlatFolder.mk 1 "a" none)).items :=
  (orphan_item_discarded [FlatFolder.mk 1 "a" none] [Item.mk 10 "x" 999]
      (Item.mk 10 "x" 999)
      (by intro g hg; simp at hg; subst hg; simp [FlatFolder.id])
      (by
        intro it2 h2 hh
        simpa using h2)).1
    (buildNode [FlatFolder.mk 1 "a" none] [Item.mk 10 "x" 999] 1 (FlatFolder.mk 1 "a" none))
    (by
      rw [mem_flattenFolders]
      refine ⟨buildNode [FlatFolder.mk 1 "a" none] [Item.mk 10 "x" 999] 1
        (FlatFolder.mk 1 "a" none), ?_, self_mem_subtreeNodes _⟩
      simp [nestFoldersWithItems])

theorem buildNode_children_faithful (folders : List FlatFolder) (items : List Item)
    (huniq : (folders.map FlatFolder.id).Nodup) :
    ∀ (fuel : Nat) (P : List FlatFolder) (g : FlatFolder),
      (∀ x ∈ P ++ [g], x ∈ folders) →
      (((P ++ [g]).map FlatFolder.id).Nodup) →
      (∀ h0, (P ++ [g])[0]? = some h0 → h0.parent = none) →
      (∀ i x y, (P ++ [g])[i]? = some x → (P ++ [g])[i+1]? = some y →
          y.parent = some x.id) →
      folders.length ≤ fuel + P.length →
      ∀ m ∈ subtreeNodes (buildNode folders items fuel g),
        m.children.map Folder.id
          = (folders.filter (fun c => decide (c.parent = some m.id))).map FlatFolder.id := by
  intro fuel
  induction fuel with
  | zero =>
    intro P g hsub hnodup hhead hlink hfuel m hm
    exfalso
    have hlen : (P ++ [g]).length ≤ folders.length := by
      have hsp : ((P ++ [g]).map FlatFolder.id) ⊆ folders.map FlatFolder.id := by
        intro a ha
        obtain ⟨x, hx, rfl⟩ := List.mem_map.mp ha
        exact List.mem_map.mpr ⟨x, hsub x hx, rfl⟩
      have hle := (List.subperm_of_subset hnodup hsp).length_le
      simpa using hle
    simp only [List.length_append, List.length_singleton] at hlen
    omega
  | succ fuel ih =>
    intro P g hsub hnodup hhead hlink hfuel m hm
    simp only [buildNode] at hm
    rw [mem_subtreeNodes] at hm
    rcases hm with rfl | ⟨cn, hcn, hmc⟩
    · simp only [Folder.children, Folder.id, List.map_map]
      exact List.map_congr_left fun c hc => buildNode_id folders items fuel c
    · simp only [Folder.children] at hcn
      obtain ⟨c1, hc1, rfl⟩ := List.mem_map.mp hcn
      have hc1f : c1 ∈ folders := (List.mem_filter.mp hc1).1
      have hc1p : c1.parent = some g.id := by
        simpa using (List.mem_filter.mp hc1).2
      have hglast : (P ++ [g])[P.length]? = some g := by
        rw [List.getElem?_append_right (by simp)]
        simp
      have hnotin : c1.id ∉ (P ++ [g]).map FlatFolder.id := by
        intro hmemid
        obtain ⟨x, hxL, hxid⟩ := List.mem_map.mp hmemid
        have hxf : x ∈ folders := hsub x hxL
        have hxc : x = c1 := List.inj_on_of_nodup_map huniq hxf hc1f hxid
        subst hxc
        obtain ⟨j, hj, hgetj⟩ := List.mem_iff_getElem.mp hxL
        match j, hj, hgetj with
        | 0, hj, hgetj =>
          have h0 : (P ++ [g])[0]? = some x := by
            rw [List.getElem?_eq_getElem hj, hgetj]
          have hxnone := hhead x h0
          rw [hxnone] at hc1p
          cases hc1p
        | j' + 1, hj, hgetj =>
          have hx2 : (P ++ [g])[j'+1]? = some x := by
            rw [List.getElem?_eq_getElem hj, hgetj]
          have hj2 : j' < (P ++ [g]).length := by omega
          obtain ⟨v, hv⟩ : ∃ v, (P ++ [g])[j']? = some v := by
            rw [List.getElem?_eq_getElem hj2]
            exact ⟨_, rfl⟩
          have hvpar := hlink j' v x hv hx2
          have hvid : v.id = g.id := by
            rw [hvpar] at hc1p
            exact Option.some_injective _ hc1p
          have hjlt : j' < P.length := by
            simp only [List.length_append, List.length_singleton] at hj
            omega
          have hne := List.nodup_iff_getElem?_ne_getElem?.mp hnodup j' P.length hjlt
            (by simp)
          apply hne
          rw [List.getElem?_map, List.getElem?_map, hv, hglast]
          simp [hvid]
      have hsub2 : ∀ x ∈ (P ++ [g]) ++ [c1], x ∈ folders := by
        intro x hx
        rcases List.mem_append.mp hx with hx | hx
        · exact hsub x hx
        · simp only [List.mem_singleton] at hx
          subst hx
          exact hc1f
      have hnodup2 : (((P ++ [g]) ++ [c1]).map FlatFolder.id).Nodup := by
        rw [List.map_append]
        refine hnodup.append (by simp) ?_
        intro a ha hb
        simp only [List.map_singleton, List.mem_singleton] at hb
        subst hb
        exact hnotin ha
      have hhead2 : ∀ h0, ((P ++ [g]) ++ [c1])[0]? = some h0 → h0.parent = none := by
        intro h0 hh
        rw [List.getElem?_append_left (by simp)] at hh
        exact hhead h0 hh
      have hlink2 : ∀ i x y, ((P ++ [g]) ++ [c1])[i]? = some x →
          ((P ++ [g]) ++ [c1])[i+1]? = some y → y.parent = some x.id := by
        intro i x y hx hy
        by_cases hi1 : i + 1 < (P ++ [g]).length
        · rw [List.getElem?_append_left (by omega)] at hx
          rw [List.getElem?_append_left hi1] at hy
          exact hlink i x y hx hy
        · by_cases hi2 : i + 1 = (P ++ [g]).length
          · rw [List.getElem?_append_right (by omega), hi2, Nat.sub_self] at hy
            rw [List.getElem?_cons_zero] at hy
            have hyc : y = c1 := Option.some_injective _ hy.symm
            have hieq : i = P.length := by
              simp only [List.length_append, List.length_singleton] at hi2
              omega
            rw [List.getElem?_append_left (by omega), hieq, hglast] at hx
            have hxg : x = g := Option.some_injective _ hx.symm
            rw [hyc, hxg]
            exact hc1p
          · rw [List.getElem?_append_right (by omega)] at hy
            rw [List.getElem?_eq_none (by
              simp only [List.length_append, List.length_singleton] at hi1 hi2 ⊢
              omega)] at hy
            cases hy
      have hfuel2 : folders.length ≤ fuel + ((P ++ [g]).length) := by
        simp only [List.length_append, List.length_singleton]
        omega
      exact ih (P ++ [g]) c1 hsub2 hnodup2 hhead2 hlink2 hfuel2 m hmc

/-- C6: with unique folder ids (the data model's invariant), the tree builder
makes every null-parent folder a root in first-seen input order, gives every
node of the output forest exactly the input folders whose parent is that
node's id as children, in first-seen input order, and discards every folder
whose parent id matches no folder id: no node of the forest carries its id
(and the builder is total — no crash). -/
theorem nest_builder_contract (folders : List FlatFolder) (items : List Item)
    (huniq : (folders.map FlatFolder.id).Nodup) :
    ((nestFoldersWithItems folders items).map Folder.id
        = (folders.filter (fun g => decide (g.parent = none))).map FlatFolder.id) ∧
    (∀ m ∈ flattenFolders (nestFoldersWithItems folders items),
        m.children.map Folder.id
          = (folders.filter (fun c => decide (c.parent = some m.id))).map FlatFolder.id) ∧
    (∀ g ∈ folders, ∀ p, g.parent = some p → (∀ q ∈ folders, q.id ≠ p) →
        ∀ m ∈ flattenFolders (nestFoldersWithItems folders items), m.id ≠ g.id) := by
  refine ⟨?_, ?_, ?_⟩
  · simp only [nestFoldersWithItems, List.map_map]
    exact List.map_congr_left fun c hc => buildNode_id folders items folders.length c
  · intro m hm
    rw [mem_flattenFolders] at hm
    obtain ⟨r, hr, hmr⟩ := hm
    obtain ⟨g0, hg0, rfl⟩ := List.mem_map.mp hr
    have hg0f : g0 ∈ folders := (List.mem_filter.mp hg0).1
    have hg0p : g0.parent = none := by
      simpa using (List.mem_filter.mp hg0).2
    refine buildNode_children_faithful folders items huniq folders.length [] g0
      ?_ ?_ ?_ ?_ ?_ m hmr
    · intro x hx
      simp only [List.nil_append, List.mem_singleton] at hx
      subst hx
      exact hg0f
    · simp
    · intro h0 hh
      rw [List.nil_append, List.getElem?_cons_zero] at hh
      have hh0 : h0 = g0 := Option.some_injective _ hh.symm
      subst hh0
      exact hg0p
    · intro i x y hx hy
      rw [List.nil_append] at hy
      rw [List.getElem?_eq_none (by simp)] at hy
      cases hy
    · simp
  · intro g hg p hp hnop m hm hmi
    rw [mem_flattenFolders] at hm
    obtain ⟨r, hr, hmr⟩ := hm
    obtain ⟨g0, hg0, rfl⟩ := List.mem_map.mp hr
    have hg0f : g0 ∈ folders := (List.mem_filter.mp hg0).1
    have hg0p : g0.parent = none := by
      simpa using (List.mem_filter.mp hg0).2
    obtain ⟨c, hcf, hcid, -, hflag⟩ :=
      subtree_node_shape folders items folders.length g0 hg0f m hmr
    have hcg : c = g := List.inj_on_of_nodup_map huniq hcf hg (by rw [← hcid, hmi])
    subst hcg
    rcases hflag with rfl | ⟨q, hqf, hqp⟩
    · rw [hp] at hg0p
      cases hg0p
    · rw [hp] at hqp
      exact hnop q hqf (Option.some_injective _ hqp.symm)

theorem nest_builder_contract_witness :
    (nestFoldersWithItems [FlatFolder.mk 1 "a" none, FlatFolder.mk 2 "b" (some 1)] []).map
        Folder.id
      = ([FlatFolder.mk 1 "a" none, FlatFolder.mk 2 "b" (some 1)].filter
          (fun g => decide (g.parent = none))).map FlatFolder.id :=
  (nest_builder_contract [FlatFolder.mk 1 "a" none, FlatFolder.mk 2 "b" (some 1)] []
    (by decide)).1

/-- APIResponse from the types module, with the informational `columns`
descriptors dropped: each folder row is `(id, name, parentId)` and each item
row is `(id, name, folderId)`. -/
structure APIResponse where
  folders : List (Int × String × Option Int)
  items : List (Int × String × Int)

/-- `parseApiResponse(apiResponse)`: maps each row to a typed record, with
the `title || 'Unnamed ...'` fallback (for a string the only falsy value is
the empty string). -/
def parseApiResponse (api : APIResponse) : List FlatFolder × List Item :=
  (api.folders.map (fun r =>
      FlatFolder.mk r.1 (if r.2.1 = "" then "Unnamed Folder" else r.2.1) r.2.2),
   api.items.map (fun r =>
      Item.mk r.1 (if r.2.1 = "" then "Unnamed Item" else r.2.1) r.2.2))

/-- `processApiData(apiResponse)`: parse, nest, then sort. -/
def processApiData (le : String → String → Bool) (api : APIResponse) : List Folder :=
  sortFolders le (nestFoldersWithItems (parseApiResponse api).1 (parseApiResponse api).2)

/-- The success path of the hook's `fetchData`: the folders state becomes the
processed forest, and the previous SelectionState is updated with the
`...prev` spread, replacing only `expandedFolderIds` with the ids of all
folders of the new forest. -/
def fetchSuccess (le : String → String → Bool) (api : APIResponse)
    (prev : SelectionState) : List Folder × SelectionState :=
  let processedFolders := processApiData le api
  let allFolders := flattenFolders processedFolders
  (processedFolders,
   { prev with expandedFolderIds := (allFolders.map Folder.id).toFinset })

/-- C2 counterexample: a successful fetch does not empty selectedItemIds.
With a previous selection of item 5 and the empty response, the state after
the fetch still has selectedItemIds equal to the singleton 5, not the empty
set. -/
theorem fetch_keeps_selection_cex :
    (fetchSuccess (fun a b => decide (a.length ≤ b.length)) (APIResponse.mk [] [])
        (SelectionState.mk {5} {7})).2.selectedItemIds ≠ (∅ : Finset Int) := by
  decide

/-- C2 amended: when a fresh fetch completes successfully the SelectionState
is only partially rebuilt: expandedFolderIds is reset to the set of all
folder ids of the new forest, while selectedItemIds is carried over
unchanged from the previous state (it is empty after the initial load only
because the initial state is empty). -/
theorem fetch_resets_expansion_keeps_selection (le : String → String → Bool)
    (api : APIResponse) (prev : SelectionState) :
    (fetchSuccess le api prev).1 = processApiData le api ∧
    (fetchSuccess le api prev).2.expandedFolderIds
      = ((flattenFolders (processApiData le api)).map Folder.id).toFinset ∧
    (fetchSuccess le api prev).2.selectedItemIds = prev.selectedItemIds :=
  ⟨rfl, rfl, rfl⟩

end FolderSelector
